import Mathlib

/-!
Verification of the CodeAlchemy text-diff engine (`src/utils/DiffMatchPatch.js`)
and the incremental animated edit player (`src/operations/fileAnimations.js`,
`updateFileWithAnimation`).

Texts are modelled as `List Char` (one element per JS string unit).  The JS
string primitives used by the source (`substring` with its clamp-and-swap
semantics, `charAt` comparison loops, `indexOf`, `slice`-based splicing) are
embedded explicitly.  Diff tuples `[operation, text]` with operation
-1 / 0 / 1 are embedded as `DiffOp` with an `Int` tag, exactly as the source
represents them.
-/

namespace CodeAlchemy

/-- A diff tuple `[operation, text]`: operation is -1 (deletion), 0
(unchanged) or 1 (insertion), as in `DiffMatchPatch.js`. -/
structure DiffOp where
  op : Int
  text : List Char
deriving DecidableEq

/-- JS `String.prototype.substring` on char lists: both endpoints are clamped
into `[0, length]` and swapped when the start exceeds the end. -/
def jsSubstring (s : List Char) (start stop : Nat) : List Char :=
  let a := min start s.length
  let b := min stop s.length
  (s.drop (min a b)).take (max a b - min a b)

/-- `diff_commonPrefix`: the source loops `i` over the shorter length and
returns the first index where `charAt` differs, else that length.  This is
the length of the longest common prefix, computed here by recursion. -/
def diff_commonPrefix : List Char → List Char → Nat
  | a :: as, b :: bs => if a = b then diff_commonPrefix as bs + 1 else 0
  | _, _ => 0

/-- `diff_commonSuffix`: the source compares `charAt(length - i)` pairs from
the ends, returning the first `i - 1` that differs, else the shorter length:
the length of the longest common suffix, i.e. the longest common prefix of
the reversals. -/
def diff_commonSuffix (text1 text2 : List Char) : Nat :=
  diff_commonPrefix text1.reverse text2.reverse

/-- `diff_computeSimple`: deletion of all of `text1` followed by insertion of
all of `text2`, with JS truthiness on the strings (empty is falsy). -/
def diff_computeSimple (text1 text2 : List Char) : List DiffOp :=
  if text1 ≠ [] ∧ text2 ≠ [] then [⟨-1, text1⟩, ⟨1, text2⟩]
  else if text1 ≠ [] then [⟨-1, text1⟩]
  else if text2 ≠ [] then [⟨1, text2⟩]
  else []

/-- One step of `diff_cleanupMerge`'s while loop, on the reversed stack: merge
the incoming tuple into the top of the stack when the operations agree, else
push it. -/
def mergeStep : List DiffOp → DiffOp → List DiffOp
  | top :: rest, d => if top.op = d.op then ⟨top.op, top.text ++ d.text⟩ :: rest else d :: top :: rest
  | [], d => [d]

/-- `diff_cleanupMerge`: a single left-to-right pass merging adjacent tuples
with the same operation (the source mutates `diffs` in place; here the merged
list is returned). -/
def diff_cleanupMerge (diffs : List DiffOp) : List DiffOp :=
  (diffs.foldl mergeStep []).reverse

/-- `diff_cleanupSemantic`: the simplified source just runs
`diff_cleanupMerge` again. -/
def diff_cleanupSemantic (diffs : List DiffOp) : List DiffOp :=
  diff_cleanupMerge diffs

/-- `diff_main`.  Note three source details faithfully preserved here:
the common suffix is computed on the original strings (before the prefix is
stripped); the early returns for an empty stripped remainder skip the
prefix/suffix re-attachment entirely; and the re-attachment reads
`text1.substring(...)` after `text1` has been reassigned to the stripped
remainder. -/
def diff_main (text1 text2 : List Char) : List DiffOp :=
  if text1 = text2 then
    if text1 ≠ [] then [⟨0, text1⟩] else []
  else
    let commonPrefix := diff_commonPrefix text1 text2
    let commonSuffix := diff_commonSuffix text1 text2
    let t1 := jsSubstring text1 commonPrefix (text1.length - commonSuffix)
    let t2 := jsSubstring text2 commonPrefix (text2.length - commonSuffix)
    if t1 = [] then [⟨1, t2⟩]
    else if t2 = [] then [⟨-1, t1⟩]
    else
      let core := diff_computeSimple t1 t2
      let withPre := if commonPrefix ≠ 0 then ⟨0, jsSubstring t1 0 commonPrefix⟩ :: core else core
      let withSuf :=
        if commonSuffix ≠ 0 then withPre ++ [⟨0, jsSubstring t1 (t1.length - commonSuffix) t1.length⟩]
        else withPre
      diff_cleanupMerge withSuf

/-- Concatenation of the texts of all Delete and Equal tuples, in order: what
applying the diff "as the old side" reconstructs. -/
def sourceText : List DiffOp → List Char
  | [] => []
  | d :: rest => (if d.op = 1 then [] else d.text) ++ sourceText rest

/-- Concatenation of the texts of all Equal and Insert tuples, in order: what
applying the diff "as the new side" reconstructs. -/
def targetText : List DiffOp → List Char
  | [] => []
  | d :: rest => (if d.op = -1 then [] else d.text) ++ targetText rest

/-! ### The incremental edit player (`updateFileWithAnimation`)

The player consumes a diff sequence against a live document.  The document's
materialized content is modelled as a `List Char`; the source's
`currentContent` mirror and the document stay in sync because every applied
edit is computed from the mirror, so one state serves for both.  Each
single-unit edit issued through the editor capability is recorded as an
`EditEvent`.  A capability edit that throws is modelled in `Except`; the
source's surrounding try/catch becomes the `.error` branch of the run, which
falls back to a plain full-content write of `newContent`
(`fs.writeFileSync`).  The spec's `ReplayOutcome` labels the two terminal
code paths: `Done` when the materialized content already matched `newText`
at verification, `FallbackApplied` when a corrective or fallback full write
occurred. -/

/-- One atomic edit issued to the editable-document capability. -/
inductive EditEvent where
  | ins (offset : Nat) (c : Char)
  | del (start stop : Nat)
  | replaceAll (text : List Char)
deriving DecidableEq

/-- Terminal state of one replay call. -/
inductive ReplayOutcome where
  | Done
  | FallbackApplied
deriving DecidableEq

/-- Whether the capability's single-unit edits throw. -/
structure Cap where
  insertFails : Bool
  deleteFails : Bool
deriving DecidableEq

/-- A capability whose edits always succeed. -/
def capOk : Cap := ⟨false, false⟩

/-- A capability whose `insertAt`/`deleteRange` edits always throw. -/
def capFail : Cap := ⟨true, true⟩

/-- `currentContent.slice(0, i) + c + currentContent.slice(i)`: insert one
unit at offset `i`. -/
def insertAtList (l : List Char) (i : Nat) (c : Char) : List Char :=
  l.take i ++ c :: l.drop i

/-- `currentContent.slice(0, i) + currentContent.slice(i + 1)`: delete the
unit at offset `i`. -/
def removeAtList (l : List Char) (i : Nat) : List Char :=
  l.take i ++ l.drop (i + 1)

/-- JS `String.prototype.indexOf`: the first offset at which `needle` occurs
in `hay`, as an `Option` (the source's `-1` sentinel becomes `none`). -/
def jsIndexOf (hay needle : List Char) : Option Nat :=
  (List.range (hay.length + 1)).find? fun i => (hay.drop i).take needle.length == needle

/-- The insertion branch of the op loop: for `i = 0, 1, ...` insert unit `i`
of the remaining text at offset `insertPosition + i` (the source's fixed
`insertPosition = currentContent.length` plus the loop index), or throw if
the capability fails. -/
def insertLoop (cap : Cap) (insertPosition : Nat) :
    List Char → Nat → List Char → Except Unit (List Char × List EditEvent)
  | [], _, content => .ok (content, [])
  | c :: rest, i, content =>
    if cap.insertFails then .error ()
    else
      match insertLoop cap insertPosition rest (i + 1) (insertAtList content (insertPosition + i) c) with
      | .error e => .error e
      | .ok (fin, evs) => .ok (fin, .ins (insertPosition + i) c :: evs)

/-- The deletion branch of the op loop: for `i = k - 1` down to `0` delete
the single unit at offset `deleteStart + i` (right-to-left), or throw if the
capability fails. -/
def deleteLoop (cap : Cap) (deleteStart : Nat) :
    Nat → List Char → Except Unit (List Char × List EditEvent)
  | 0, content => .ok (content, [])
  | k + 1, content =>
    if cap.deleteFails then .error ()
    else
      match deleteLoop cap deleteStart k (removeAtList content (deleteStart + k)) with
      | .error e => .error e
      | .ok (fin, evs) => .ok (fin, .del (deleteStart + k) (deleteStart + k + 1) :: evs)

/-- The `for (const [operation, text] of diffs)` loop of
`updateFileWithAnimation`: Equal tuples are skipped, Insert tuples insert
unit by unit starting at `currentContent.length`, Delete tuples search the
current content for the deleted text with `indexOf` and, when found, delete
its span right-to-left; an unfound anchor skips the animated deletion. -/
def opLoop (cap : Cap) : List DiffOp → List Char → Except Unit (List Char × List EditEvent)
  | [], content => .ok (content, [])
  | d :: rest, content =>
    if d.op = 0 then
      opLoop cap rest content
    else if d.op = 1 then
      match insertLoop cap content.length d.text 0 content with
      | .error e => .error e
      | .ok (c1, evs1) =>
        match opLoop cap rest c1 with
        | .error e => .error e
        | .ok (c2, evs2) => .ok (c2, evs1 ++ evs2)
    else if d.op = -1 then
      match jsIndexOf content d.text with
      | none => opLoop cap rest content
      | some dsp =>
        match deleteLoop cap dsp d.text.length content with
        | .error e => .error e
        | .ok (c1, evs1) =>
          match opLoop cap rest c1 with
          | .error e => .error e
          | .ok (c2, evs2) => .ok (c2, evs1 ++ evs2)
    else
      opLoop cap rest content

/-- Result of one replay call: final document content, the edit events that
were applied, and the terminal state. -/
structure ReplayResult where
  content : List Char
  events : List EditEvent
  outcome : ReplayOutcome
deriving DecidableEq

/-- `updateFileWithAnimation`: compute the diff, run one cleanup pass over
it, replay the op loop, then verify — if the materialized content differs
from `newContent`, issue one corrective full-content replace.  A capability
edit that throws lands in the catch block, which writes `newContent`
directly (the non-animated fallback). -/
def updateFileWithAnimation (cap : Cap) (oldContent newContent : List Char) : ReplayResult :=
  let diffs := diff_cleanupSemantic (diff_main oldContent newContent)
  match opLoop cap diffs oldContent with
  | .error _ => ⟨newContent, [], .FallbackApplied⟩
  | .ok (content, evs) =>
    if content = newContent then ⟨content, evs, .Done⟩
    else ⟨newContent, evs ++ [.replaceAll newContent], .FallbackApplied⟩

/-! ### Definitions used only to state properties -/

/-- The expected event trace of typing `t` unit by unit at consecutive
offsets `base, base + 1, ...`. -/
def typeEvents : Nat → List Char → List EditEvent
  | _, [] => []
  | base, c :: rest => .ins base c :: typeEvents (base + 1) rest

/-- The expected event trace of deleting the `k`-unit span starting at `dsp`
right-to-left: offsets `dsp + k - 1` down to `dsp`, one event per unit. -/
def delEvents (dsp : Nat) : Nat → List EditEvent
  | 0 => []
  | k + 1 => .del (dsp + k) (dsp + k + 1) :: delEvents dsp k

/-- The insertion offsets recorded in an event trace, in order. -/
def insOffsets : List EditEvent → List Nat
  | [] => []
  | .ins o _ :: rest => o :: insOffsets rest
  | _ :: rest => insOffsets rest

/-- Second definition following the spec's words (claim C6), for comparison
with the code: a logical cursor `pos` starts at 0, each Equal op advances it
by its text length, and each Insert op inserts its units at `pos`,
incrementing `pos` per unit; the insertion offsets such a player would use. -/
def specInsertOffsets : List DiffOp → Nat → List Nat
  | [], _ => []
  | d :: rest, pos =>
    if d.op = 0 then specInsertOffsets rest (pos + d.text.length)
    else if d.op = 1 then
      (List.range d.text.length).map (fun i => pos + i) ++ specInsertOffsets rest (pos + d.text.length)
    else specInsertOffsets rest pos

/-- Second definition following the spec's words (claim C7): the anchor
search for a deletion, "starting at the last known position" `fromIdx`. -/
def specAnchorFrom (hay needle : List Char) (fromIdx : Nat) : Option Nat :=
  (List.range (hay.length + 1)).find? fun i =>
    fromIdx ≤ i && (hay.drop i).take needle.length == needle

/-! ### Helper lemmas -/

theorem capOk_insertFails : capOk.insertFails = false := rfl

theorem capOk_deleteFails : capOk.deleteFails = false := rfl

theorem capFail_insertFails : capFail.insertFails = true := rfl

theorem capFail_deleteFails : capFail.deleteFails = true := rfl

/-- `mergeStep` preserves the no-adjacent-equal-operations invariant of the
stack. -/
theorem mergeStep_chain {acc : List DiffOp}
    (h : List.Chain' (fun x y => x.op ≠ y.op) acc) (d : DiffOp) :
    List.Chain' (fun x y => x.op ≠ y.op) (mergeStep acc d) := by
  match acc with
  | [] => simp [mergeStep]
  | top :: rest =>
    by_cases hop : top.op = d.op
    · simp only [mergeStep, if_pos hop]
      cases rest with
      | nil => simp
      | cons r rs =>
        rw [List.chain'_cons] at h ⊢
        exact ⟨h.1, h.2⟩
    · simp only [mergeStep, if_neg hop]
      rw [List.chain'_cons]
      exact ⟨fun hc => hop hc.symm, h⟩

/-- Folding `mergeStep` from a well-formed stack keeps it well formed. -/
theorem foldl_mergeStep_chain (l : List DiffOp) :
    ∀ acc, List.Chain' (fun x y => x.op ≠ y.op) acc →
      List.Chain' (fun x y => x.op ≠ y.op) (l.foldl mergeStep acc) := by
  induction l with
  | nil => exact fun _ h => h
  | cons d rest ih => exact fun acc h => ih _ (mergeStep_chain h d)

/-- The output of `diff_cleanupMerge` has no two adjacent tuples with the
same operation. -/
theorem diff_cleanupMerge_chain (l : List DiffOp) :
    List.Chain' (fun x y => x.op ≠ y.op) (diff_cleanupMerge l) := by
  unfold diff_cleanupMerge
  rw [List.chain'_reverse]
  exact List.Chain'.imp (fun a b hab => fun hc => hab hc.symm)
    (foldl_mergeStep_chain l [] List.chain'_nil)

/-- On a list with no two adjacent equal operations, folding `mergeStep` only
pushes. -/
theorem foldl_mergeStep_of_chain :
    ∀ (l : List DiffOp) (top : DiffOp) (rest : List DiffOp),
      List.Chain' (fun x y => x.op ≠ y.op) (top :: l) →
      l.foldl mergeStep (top :: rest) = l.reverse ++ top :: rest := by
  intro l
  induction l with
  | nil => intro top rest _; rfl
  | cons d ls ih =>
    intro top rest h
    rw [List.chain'_cons] at h
    show List.foldl mergeStep (mergeStep (top :: rest) d) ls = (d :: ls).reverse ++ top :: rest
    rw [show mergeStep (top :: rest) d = d :: top :: rest from by simp [mergeStep, h.1]]
    rw [ih d (top :: rest) h.2]
    simp

/-- `diff_cleanupMerge` is the identity on already-merged lists. -/
theorem diff_cleanupMerge_of_chain (l : List DiffOp)
    (h : List.Chain' (fun x y => x.op ≠ y.op) l) : diff_cleanupMerge l = l := by
  cases l with
  | nil => rfl
  | cons d ls =>
    show (List.foldl mergeStep (mergeStep [] d) ls).reverse = d :: ls
    rw [show mergeStep [] d = [d] from rfl, foldl_mergeStep_of_chain ls d [] h]
    simp

/-- The merge pass is idempotent. -/
theorem diff_cleanupMerge_idem (l : List DiffOp) :
    diff_cleanupMerge (diff_cleanupMerge l) = diff_cleanupMerge l :=
  diff_cleanupMerge_of_chain _ (diff_cleanupMerge_chain l)

/-- The operation sequence of any `diff_main` output is one of eight fixed
shapes. -/
theorem diff_main_ops (text1 text2 : List Char) :
    (diff_main text1 text2).map DiffOp.op ∈
      ([[], [0], [1], [-1], [-1, 1], [0, -1, 1], [-1, 1, 0], [0, -1, 1, 0]] :
        List (List Int)) := by
  by_cases heq : text1 = text2
  · subst heq
    by_cases hne : text1 = []
    · simp [diff_main, hne]
    · simp [diff_main, hne]
  · simp only [diff_main, if_neg heq]
    generalize jsSubstring text1 (diff_commonPrefix text1 text2)
        (text1.length - diff_commonSuffix text1 text2) = a
    generalize jsSubstring text2 (diff_commonPrefix text1 text2)
        (text2.length - diff_commonSuffix text1 text2) = b
    by_cases h1 : a = []
    · simp [h1]
    · by_cases h2 : b = []
      · simp [h1, h2]
      · by_cases hP : diff_commonPrefix text1 text2 = 0
        · by_cases hS : diff_commonSuffix text1 text2 = 0
          · simp [h1, h2, hP, hS, diff_computeSimple, diff_cleanupMerge, mergeStep]
          · simp [h1, h2, hP, hS, diff_computeSimple, diff_cleanupMerge, mergeStep]
        · by_cases hS : diff_commonSuffix text1 text2 = 0
          · simp [h1, h2, hP, hS, diff_computeSimple, diff_cleanupMerge, mergeStep]
          · simp [h1, h2, hP, hS, diff_computeSimple, diff_cleanupMerge, mergeStep]

/-- With a non-failing capability, the insertion branch types the remaining
text at the end of the content, provided the target offset is the current
length (which the source guarantees: the fixed `insertPosition` was the
content length when the loop started, and each unit appended grows the
content by one). -/
theorem insertLoop_capOk (insertPosition : Nat) :
    ∀ (t : List Char) (i : Nat) (content : List Char),
      insertPosition + i = content.length →
      insertLoop capOk insertPosition t i content =
        .ok (content ++ t, typeEvents (insertPosition + i) t) := by
  intro t
  induction t with
  | nil => intro i content _; simp [insertLoop, typeEvents]
  | cons c rest ih =>
    intro i content h
    have hins : insertAtList content (insertPosition + i) c = content ++ [c] := by
      rw [insertAtList, h, List.take_length, List.drop_length]
    have hlen : insertPosition + (i + 1) = (content ++ [c]).length := by
      simp only [List.length_append, List.length_cons, List.length_nil, ← h]
      omega
    have harg : insertPosition + (i + 1) = insertPosition + i + 1 := by omega
    simp only [insertLoop, capOk_insertFails, Bool.false_eq_true, if_false, hins,
      ih (i + 1) _ hlen, harg]
    simp [typeEvents]

/-- Deleting at an offset leaves the part of the list before it unchanged. -/
theorem removeAtList_take {n : Nat} (l : List Char) {i : Nat} (h : n ≤ i) :
    (removeAtList l i).take n = l.take n := by
  rw [removeAtList, List.take_append_eq_append_take, List.take_take,
    min_eq_left h, List.length_take]
  by_cases hn : n ≤ l.length
  · have : n - min i l.length = 0 := by omega
    simp [this]
  · have hd : l.drop (i + 1) = [] := List.drop_eq_nil_of_le (by omega)
    have ht : l.take i = l := List.take_of_length_le (by omega)
    simp [hd, ht]

/-- Deleting at offset `i` turns the part of the list from `i` on into the
part from `i + 1` on. -/
theorem removeAtList_drop (l : List Char) (i : Nat) :
    (removeAtList l i).drop i = l.drop (i + 1) := by
  rw [removeAtList, List.drop_append_eq_append_drop, List.length_take]
  have h1 : List.drop i (l.take i) = [] := List.drop_eq_nil_of_le (by simp)
  by_cases hn : i ≤ l.length
  · have : i - min i l.length = 0 := by omega
    simp [h1, this]
  · have hd : l.drop (i + 1) = [] := List.drop_eq_nil_of_le (by omega)
    simp [h1, hd]

/-- With a non-failing capability, the deletion branch removes exactly the
`k`-unit span starting at `deleteStart`, right-to-left. -/
theorem deleteLoop_capOk (deleteStart : Nat) :
    ∀ (k : Nat) (content : List Char),
      deleteLoop capOk deleteStart k content =
        .ok (content.take deleteStart ++ content.drop (deleteStart + k),
             delEvents deleteStart k) := by
  intro k
  induction k with
  | zero => intro content; simp [deleteLoop, delEvents]
  | succ k ih =>
    intro content
    simp only [deleteLoop, capOk_deleteFails, Bool.false_eq_true, if_false, ih]
    rw [removeAtList_take _ (Nat.le_add_right _ _), removeAtList_drop]
    simp only [delEvents]
    have : deleteStart + k + 1 = deleteStart + (k + 1) := by omega
    rw [this]

/-- With an always-failing capability the op loop either throws or finishes
without having changed anything: every mutation goes through a capability
call, and the first such call throws. -/
theorem opLoop_capFail (diffs : List DiffOp) :
    ∀ content, opLoop capFail diffs content = .error () ∨
      opLoop capFail diffs content = .ok (content, []) := by
  induction diffs with
  | nil => intro content; right; rfl
  | cons d rest ih =>
    intro content
    by_cases h0 : d.op = 0
    · simpa [opLoop, h0] using ih content
    · by_cases h1 : d.op = 1
      · cases ht : d.text with
        | nil =>
          rcases ih content with h | h <;>
            simp [opLoop, h0, h1, ht, insertLoop, h]
        | cons c cs => simp [opLoop, h0, h1, ht, insertLoop, capFail_insertFails]
      · by_cases hm : d.op = -1
        · cases hI : jsIndexOf content d.text with
          | none => simpa [opLoop, h0, h1, hm, hI] using ih content
          | some dsp =>
            cases ht : d.text with
            | nil =>
              rw [ht] at hI
              rcases ih content with h | h <;>
                simp [opLoop, h0, h1, hm, hI, ht, deleteLoop, h]
            | cons c cs =>
              rw [ht] at hI
              simp [opLoop, h0, h1, hm, hI, ht, deleteLoop, capFail_deleteFails]
        · simpa [opLoop, h0, h1, hm] using ih content

/-! ### Claim theorems -/

/-- C1: the round-trip invariant fails on the code.  For `text1 = "ab"`,
`text2 = "axb"` the common prefix "a" and common suffix "b" strip `text1` to
the empty remainder, and `diff_main` early-returns `[[1, "x"]]` without
re-attaching the prefix/suffix Equal tuples, so the Delete/Equal
concatenation is `""`, not `"ab"`, and the Equal/Insert concatenation is
`"x"`, not `"axb"`. -/
theorem c1_roundTrip_fails_on_code :
    diff_main ['a', 'b'] ['a', 'x', 'b'] = [⟨1, ['x']⟩] ∧
    sourceText (diff_main ['a', 'b'] ['a', 'x', 'b']) ≠ ['a', 'b'] ∧
    targetText (diff_main ['a', 'b'] ['a', 'x', 'b']) ≠ ['a', 'x', 'b'] :=
  ⟨rfl, by decide, by decide⟩

/-- C2: whatever the capability does, `updateFileWithAnimation` ends with the
document content equal to `newContent`: after the op loop the materialized
content is compared against `newContent` and, when they differ, one
corrective full-content replace is issued (and a thrown edit lands in the
catch block, which writes `newContent` directly). -/
theorem c2_replay_final_content (cap : Cap) (oldContent newContent : List Char) :
    (updateFileWithAnimation cap oldContent newContent).content = newContent := by
  simp only [updateFileWithAnimation]
  cases hE : opLoop cap (diff_cleanupSemantic (diff_main oldContent newContent)) oldContent with
  | error e => simp
  | ok p =>
    obtain ⟨c, evs⟩ := p
    by_cases h : c = newContent
    · simp [h]
    · simp [h]

/-- C3 counterexample: when `oldContent = newContent` the diff is empty, no
`insertAt`/`deleteRange` is ever attempted even though the capability would
always throw, and the replay terminates `Done` with no fallback write — so
the claim's "reported as FallbackApplied" does not hold as stated for every
replay under an always-failing capability. -/
theorem c3_counterexample :
    updateFileWithAnimation capFail [] [] = ⟨[], [], .Done⟩ ∧
    ReplayOutcome.Done ≠ ReplayOutcome.FallbackApplied :=
  ⟨rfl, by decide⟩

/-- C3 (amended): if the capability's `insertAt`/`deleteRange` edits always
throw and `oldContent ≠ newContent` (so the replay attempts at least one
edit, or ends the op loop with content still `oldContent`), the replay
terminates with the document content equal to `newContent` through a single
full-content write, reported as `FallbackApplied`. -/
theorem c3_always_failing_capability (oldContent newContent : List Char)
    (hne : oldContent ≠ newContent) :
    (updateFileWithAnimation capFail oldContent newContent).content = newContent ∧
    (updateFileWithAnimation capFail oldContent newContent).outcome = .FallbackApplied := by
  simp only [updateFileWithAnimation]
  rcases opLoop_capFail (diff_cleanupSemantic (diff_main oldContent newContent)) oldContent
    with h | h
  · rw [h]; exact ⟨rfl, rfl⟩
  · rw [h]; simp [hne]

theorem c3_witness :
    (['a'] : List Char) ≠ ['b'] ∧
    ((updateFileWithAnimation capFail ['a'] ['b']).content = ['b'] ∧
     (updateFileWithAnimation capFail ['a'] ['b']).outcome = .FallbackApplied) :=
  ⟨by decide, c3_always_failing_capability ['a'] ['b'] (by decide)⟩

/-- C4: prefix/suffix re-attachment fails on the code.  For
`("ab", "axb")` (shared prefix "a", shared suffix "b") the output is a bare
`[[1, "x"]]` with no Equal tuples at all, and for `("abc", "axc")` the
re-attached Equal texts are read from the already-stripped `text1 = "b"`, so
both the leading and trailing Equal tuples carry `"b"` instead of the
original prefix `"a"` and suffix `"c"`. -/
theorem c4_reattachment_fails_on_code :
    diff_main ['a', 'b'] ['a', 'x', 'b'] = [⟨1, ['x']⟩] ∧
    diff_main ['a', 'b', 'c'] ['a', 'x', 'c'] =
      [⟨0, ['b']⟩, ⟨-1, ['b']⟩, ⟨1, ['x']⟩, ⟨0, ['b']⟩] :=
  ⟨rfl, rfl⟩

/-- C5: the common suffix is computed on the original strings, not on the
prefix-stripped remainders, so it can overlap the prefix.  For
`("aa", "aaa")` both the prefix and the suffix have length 2, their sum 4
exceeds the length 2 of the first input, and the resulting diff is
`[[0,"aa"], [-1,"aa"], [1,"a"], [0,"aa"]]`, which reconstructs neither
input. -/
theorem c5_suffix_overlaps_on_code :
    diff_commonPrefix ['a', 'a'] ['a', 'a', 'a'] = 2 ∧
    diff_commonSuffix ['a', 'a'] ['a', 'a', 'a'] = 2 ∧
    2 + 2 > (['a', 'a'] : List Char).length ∧
    diff_main ['a', 'a'] ['a', 'a', 'a'] =
      [⟨0, ['a', 'a']⟩, ⟨-1, ['a', 'a']⟩, ⟨1, ['a']⟩, ⟨0, ['a', 'a']⟩] :=
  ⟨rfl, rfl, by decide, rfl⟩

/-- C6 counterexample: replaying `[Equal "a", Insert "x", Equal "b"]` on
`"ab"`, the claim's cursor sits at offset 1 after the Equal op, but the
player inserts at offset 2 — the end of the current content — because it
keeps no cursor at all (`insertPosition = currentContent.length`). -/
theorem c6_counterexample :
    opLoop capOk [⟨0, ['a']⟩, ⟨1, ['x']⟩, ⟨0, ['b']⟩] ['a', 'b'] =
      .ok (['a', 'b', 'x'], [.ins 2 'x']) ∧
    insOffsets [.ins 2 'x'] = [2] ∧
    specInsertOffsets [⟨0, ['a']⟩, ⟨1, ['x']⟩, ⟨0, ['b']⟩] 0 = [1] ∧
    ([2] : List Nat) ≠ [1] :=
  ⟨rfl, rfl, rfl, by decide⟩

/-- C6 (amended): the player keeps no logical cursor.  An Equal op is
skipped with no document mutation and no events, and an Insert op types its
units left-to-right at the end of the current materialized content (unit `j`
lands at offset `content.length + j`), appending the inserted text; any
resulting misplacement is corrected by the final verification. -/
theorem c6_insert_at_end (t : List Char) (rest : List DiffOp) (content : List Char) :
    opLoop capOk (⟨0, t⟩ :: rest) content = opLoop capOk rest content ∧
    opLoop capOk (⟨1, t⟩ :: rest) content =
      (opLoop capOk rest (content ++ t)).map
        (fun r => (r.1, typeEvents content.length t ++ r.2)) := by
  constructor
  · simp [opLoop]
  · have hI := insertLoop_capOk content.length t 0 content (by omega)
    rw [Nat.add_zero] at hI
    cases hR : opLoop capOk rest (content ++ t) with
    | error e => simp [opLoop, hI, hR]; rfl
    | ok p => simp [opLoop, hI, hR, Except.map]

/-- C7 counterexample: replaying `[Equal "b", Delete "b"]` on `"bb"`, the
last known position after the Equal op is 1 and an anchor search from there
finds the deleted substring at offset 1, but the player calls
`indexOf` with no start offset and deletes at offset 0 instead. -/
theorem c7_counterexample :
    opLoop capOk [⟨0, ['b']⟩, ⟨-1, ['b']⟩] ['b', 'b'] = .ok (['b'], [.del 0 1]) ∧
    specAnchorFrom ['b', 'b'] ['b'] 1 = some 1 ∧
    (0 : Nat) ≠ 1 :=
  ⟨rfl, rfl, by decide⟩

/-- C7 (amended): for a Delete op the player searches the whole current
materialized content from the start (`indexOf` with no start offset) for the
literal deleted substring; when found at `dsp` it deletes the op's units
right-to-left within the span `[dsp, dsp + |text|)`, one `deleteRange` call
per unit, and when not found the animated deletion is skipped, leaving the
final verification to correct the content. -/
theorem c7_delete_anchor (t : List Char) (rest : List DiffOp) (content : List Char) :
    (jsIndexOf content t = none →
      opLoop capOk (⟨-1, t⟩ :: rest) content = opLoop capOk rest content) ∧
    ∀ dsp, jsIndexOf content t = some dsp →
      opLoop capOk (⟨-1, t⟩ :: rest) content =
        (opLoop capOk rest (content.take dsp ++ content.drop (dsp + t.length))).map
          (fun r => (r.1, delEvents dsp t.length ++ r.2)) := by
  constructor
  · intro h; simp [opLoop, h]
  · intro dsp h
    have hD := deleteLoop_capOk dsp t.length content
    cases hR : opLoop capOk rest (content.take dsp ++ content.drop (dsp + t.length)) with
    | error e => simp [opLoop, h, hD, hR]; rfl
    | ok p => simp [opLoop, h, hD, hR, Except.map]

theorem c7_witness :
    opLoop capOk [⟨-1, ['z']⟩] ['b'] = opLoop capOk [] ['b'] ∧
    opLoop capOk [⟨-1, ['b']⟩] ['b', 'b'] =
      (opLoop capOk []
          ((['b', 'b'] : List Char).take 0 ++ (['b', 'b'] : List Char).drop (0 + 1))).map
        (fun r => (r.1, delEvents 0 1 ++ r.2)) :=
  ⟨(c7_delete_anchor ['z'] [] ['b']).1 (by decide),
   (c7_delete_anchor ['b'] [] ['b', 'b']).2 0 (by decide)⟩

/-- C8 counterexample: the cleanup pass does not drop zero-length ops — a
sequence holding one empty-text tuple is returned unchanged, not emptied. -/
theorem c8_counterexample :
    diff_cleanupMerge [⟨0, []⟩] = [⟨0, []⟩] ∧ ([⟨0, []⟩] : List DiffOp) ≠ [] :=
  ⟨rfl, by decide⟩

/-- C8 (amended): the cleanup pass — a stable left-to-right fold merging
adjacent ops of identical kind, which does not drop zero-length ops — is
idempotent: applying it twice yields the same sequence as applying it
once. -/
theorem c8_cleanup_idempotent (diffs : List DiffOp) :
    diff_cleanupMerge (diff_cleanupMerge diffs) = diff_cleanupMerge diffs :=
  diff_cleanupMerge_idem diffs

/-- C9: no two adjacent ops of a `diff_main` output share the same kind: the
early-return branches produce at most one tuple, and the main branch ends
with the merge pass (whose output never has two adjacent tuples of equal
operation) applied to an already-alternating list. -/
theorem c9_no_adjacent_same_kind (text1 text2 : List Char) :
    List.Chain' (fun x y => x.op ≠ y.op) (diff_main text1 text2) := by
  refine (List.chain'_map (R := Ne) DiffOp.op).mp ?_
  have h := diff_main_ops text1 text2
  simp only [List.mem_cons, List.not_mem_nil, or_false] at h
  rcases h with h | h | h | h | h | h | h | h <;> rw [h] <;> norm_num [List.chain'_cons]

/-- C10: every `diff_main` output contains at most one Delete and at most
one Insert tuple, and whenever both occur the Delete tuple immediately
precedes the Insert tuple. -/
theorem c10_single_delete_insert (text1 text2 : List Char) :
    ((diff_main text1 text2).map DiffOp.op).count (-1) ≤ 1 ∧
    ((diff_main text1 text2).map DiffOp.op).count 1 ≤ 1 ∧
    ((-1 : Int) ∈ (diff_main text1 text2).map DiffOp.op →
      (1 : Int) ∈ (diff_main text1 text2).map DiffOp.op →
      ∃ i, ((diff_main text1 text2).map DiffOp.op).get? i = some (-1) ∧
        ((diff_main text1 text2).map DiffOp.op).get? (i + 1) = some 1) := by
  have h := diff_main_ops text1 text2
  simp only [List.mem_cons, List.not_mem_nil, or_false] at h
  rcases h with h | h | h | h | h | h | h | h <;> rw [h] <;>
    refine ⟨by decide, by decide, fun h1 h2 => ?_⟩ <;>
    first
      | exact absurd h1 (by decide)
      | exact absurd h2 (by decide)
      | exact ⟨0, by decide, by decide⟩
      | exact ⟨1, by decide, by decide⟩

theorem c10_witness :
    ((-1 : Int) ∈ (diff_main ['a', 'b', 'c'] ['a', 'x', 'c']).map DiffOp.op) ∧
    ((1 : Int) ∈ (diff_main ['a', 'b', 'c'] ['a', 'x', 'c']).map DiffOp.op) ∧
    ∃ i, ((diff_main ['a', 'b', 'c'] ['a', 'x', 'c']).map DiffOp.op).get? i = some (-1) ∧
      ((diff_main ['a', 'b', 'c'] ['a', 'x', 'c']).map DiffOp.op).get? (i + 1) = some 1 :=
  ⟨by decide, by decide,
   (c10_single_delete_insert ['a', 'b', 'c'] ['a', 'x', 'c']).2.2 (by decide) (by decide)⟩

end CodeAlchemy
